import Mathlib

/-!
Verification of the image-upscale harness (`runsim.py`).

This file gives a shallow embedding of the numeric core of the repository:

* `intdiv2`, `race` — the golden-model 2x upscaler of `src/upscaler/runsim.py`
  (lines 135-220).  The numpy image array is embedded as a total function
  `Nat → Nat → Fin 3 → Int`; the three in-place loops of `race` are embedded
  as left folds over `List.range`, with `upd` modelling a single array store.
  Channel values are embedded as `Int` because several cubic intermediates are
  negative; `int(x / 2)` on an integer-valued float is exact truncating
  division, i.e. `Int.tdiv x 2`.
* `combine_binary_to_24_bit`, `write_combined_numbers_to_file` — the trace
  encoder (lines 53-77), embedding the composition with
  `rgb_decimal_to_binary` (numpy `binary_repr` width 8) and Python
  `int(s, 2)` / `format(n, "024b")` string conversions over `List Char`.
* `parse_image` — the frame decoder (lines 109-132).  The file of samples is
  a `List Int`; the decoder indexes `samples[(i*new_h+j)*3 + off]`, raising
  on an out-of-range index, and only writes the output image after the loop
  completes, so it is embedded as an `Option`-returning function that
  succeeds exactly when every accessed index is in range.
* namespace `Runsim` — the second, textually identical copies of the encoder
  and decoder kept in `src/runsim.py` (lines 46-98).
-/

/-- A pixel: three channel values.  Intermediates can be negative. -/
abbrev Pix := Fin 3 → Int

/-- An image / working array, indexed row then column (numpy layout). -/
abbrev Mat := Nat → Nat → Pix

/-- The zero channel vector, `np.zeros(3)`. -/
def zeroPix : Pix := fun _ => 0

/-- Pointwise sum of two channel vectors (numpy `+`). -/
def padd (a b : Pix) : Pix := fun c => a c + b c

/-- A single store `arr[i, j, :] = v` into the working array. -/
def upd (s : Mat) (i j : Nat) (v : Pix) : Mat :=
  fun a b => if a = i ∧ b = j then v else s a b

/-- numpy indexing along one axis of length `size`: a negative index `k`
counts from the end (`arr[-1]` is the last element). -/
def pyCol (size : Nat) (k : Int) : Nat :=
  if k < 0 then (k + size).toNat else k.toNat

/-- Embedding of `intdiv2` (src/upscaler/runsim.py lines 135-139): per-channel
`int(data[i]/2)`, which truncates the exact float quotient toward zero —
`Int.tdiv _ 2` on integer values. -/
def intdiv2 (d : Pix) : Pix := fun c => Int.tdiv (d c) 2

/-- Coefficient `t0` of the cubic kernel (line 202): `t0 = in1`. -/
def t0v (a0 a1 a2 a3 : Int) : Int := a1

/-- Coefficient `t1` of the cubic kernel (line 203): `intdiv2(in2) - intdiv2(in0)`. -/
def t1v (a0 a1 a2 a3 : Int) : Int := Int.tdiv a2 2 - Int.tdiv a0 2

/-- Coefficient `t2` of the cubic kernel (line 204):
`in0 - (2*in1 + intdiv2(in1)) + 2*in2 - intdiv2(in3)`. -/
def t2v (a0 a1 a2 a3 : Int) : Int :=
  a0 - (2 * a1 + Int.tdiv a1 2) + 2 * a2 - Int.tdiv a3 2

/-- Coefficient `t3` of the cubic kernel (line 205):
`-1*intdiv2(in0) + in1 + intdiv2(in1) - (in2 + intdiv2(in2)) + intdiv2(in3)`. -/
def t3v (a0 a1 a2 a3 : Int) : Int :=
  -1 * Int.tdiv a0 2 + a1 + Int.tdiv a1 2 - (a2 + Int.tdiv a2 2) + Int.tdiv a3 2

/-- Accumulation step `t32 = intdiv2(t3) + t2` (line 208). -/
def t32v (a0 a1 a2 a3 : Int) : Int :=
  Int.tdiv (t3v a0 a1 a2 a3) 2 + t2v a0 a1 a2 a3

/-- Accumulation step `t321 = intdiv2(t32) + t1` (line 209). -/
def t321v (a0 a1 a2 a3 : Int) : Int :=
  Int.tdiv (t32v a0 a1 a2 a3) 2 + t1v a0 a1 a2 a3

/-- Accumulation step `t3210 = intdiv2(t321) + t0` (line 210). -/
def t3210v (a0 a1 a2 a3 : Int) : Int :=
  Int.tdiv (t321v a0 a1 a2 a3) 2 + t0v a0 a1 a2 a3

/-- One channel of the cubic interpolation, including the saturation of
lines 213-217 (`< 0 ↦ 0`, `> 255 ↦ 255`). -/
def cubicVal (a0 a1 a2 a3 : Int) : Int :=
  let t := t3210v a0 a1 a2 a3
  if t < 0 then 0 else if 255 < t then 255 else t

/-- The cubic interpolation applied per channel (numpy arithmetic on the
3-vectors is pointwise). -/
def cubicPix (p0 p1 p2 p3 : Pix) : Pix :=
  fun c => cubicVal (p0 c) (p1 c) (p2 c) (p3 c)

/-- The `in0` tap of the cubic pass (lines 180-184): the zero vector at the
left edge `j = 0`, otherwise `new_image[i, 2*j - 3]` where the possibly
negative index follows numpy semantics. -/
def in0_tap (s : Mat) (w : Nat) (i j : Nat) : Pix :=
  if j = 0 then zeroPix else s i (pyCol (2 * w) (2 * (j : Int) - 3))

/-- Body of the anchor-copy loop (lines 164-166):
`new_image[2*i, 2*j, :] = image_array[i, j, :]`. -/
def pass0body (img : Mat) (s : Mat) (i j : Nat) : Mat :=
  upd s (2 * i) (2 * j) (img i j)

/-- Body of the vertical linear loop (lines 169-174). -/
def pass1body (h : Nat) (s : Mat) (i j : Nat) : Mat :=
  upd s (2 * i + 1) (2 * j)
    (if i = h - 1 then intdiv2 (s (2 * i) (2 * j))
     else padd (intdiv2 (s (2 * i) (2 * j))) (intdiv2 (s (2 * i + 2) (2 * j))))

/-- Body of the horizontal cubic loop (lines 177-220).  When
`j == v_res - 1` the whole computation block is inside the `else` of the
far-right edge case, so nothing is written. -/
def pass2body (w : Nat) (s : Mat) (i j : Nat) : Mat :=
  let in0 := in0_tap s w i j
  let in1 := s i (2 * j)
  let in3 := if (w : Int) - 2 ≤ (j : Int) then zeroPix else s i (2 * j + 4)
  if (j : Int) = (w : Int) - 1 then s
  else
    let in2 := s i (2 * j + 2)
    upd s i (2 * j + 1) (cubicPix in0 in1 in2 in3)

/-- One row of a nested `for` loop: `for j in range(n): s = body s i j`. -/
def innerFold (body : Mat → Nat → Nat → Mat) (i n : Nat) (s : Mat) : Mat :=
  (List.range n).foldl (fun st j => body st i j) s

/-- A nested `for i in range(r): for j in range(n)` loop over the array. -/
def loop2 (r n : Nat) (body : Mat → Nat → Nat → Mat) (s : Mat) : Mat :=
  (List.range r).foldl (fun st i => innerFold body i n st) s

/-- The working array after the anchor-copy loop.  `h` and `w` are the
source height (`h_res`, `image_array.shape[0]`) and width (`v_res`,
`image_array.shape[1]`). -/
def st1 (h w : Nat) (img : Mat) : Mat :=
  loop2 h w (pass0body img) (fun _ _ => zeroPix)

/-- The working array after the vertical linear loop. -/
def st2 (h w : Nat) (img : Mat) : Mat :=
  loop2 h w (pass1body h) (st1 h w img)

/-- Embedding of `race` (lines 143-220), restricted to its numeric effect: the upscaled
`(2*h) × (2*w)` image produced by the three loops. -/
def race (h w : Nat) (img : Mat) : Mat :=
  loop2 (2 * h) w (pass2body w) (st2 h w img)

/-- The state of the working array when the cubic loop is about to process
row `i`, column `j`: rows before `i` are finished, row `i` is done up to
column `j`. -/
def pass2stateAt (h w : Nat) (img : Mat) (i j : Nat) : Mat :=
  innerFold (pass2body w) i j (loop2 i w (pass2body w) (st2 h w img))

/-- The value of the `in0` tap actually read by the cubic pass at row `i`,
source column `j`. -/
def in0used (h w : Nat) (img : Mat) (i j : Nat) : Pix :=
  in0_tap (pass2stateAt h w img i j) w i j

/-- The vertically interpolated row value (lines 171-174 with the reads
resolved to the original pixels they address): single-sided halving at the
bottom edge, sum of two truncating halves elsewhere. -/
def linearPix (h : Nat) (img : Mat) (i j : Nat) : Pix :=
  if i = h - 1 then intdiv2 (img i j)
  else padd (intdiv2 (img i j)) (intdiv2 (img (i + 1) j))

/-- The spec's VerticalExpansion: a `(2*h) × w` array whose even rows copy
the source and whose odd rows hold the linear interpolation. -/
def VE (h : Nat) (img : Mat) (a j : Nat) : Pix :=
  if a % 2 = 0 then img (a / 2) j else linearPix h img (a / 2) j

/-- The VerticalExpansion samples laid out on the doubled output grid:
column `2*j` of the grid holds `VE[_, j]`, all other cells are zero.  This
is the contents of the working array after the two vertical loops (proved
equal to `st2` below), and is the reading of `VerticalExpansion[row, c]`
under which the spec writes `in1 = VerticalExpansion[row, 2j]`. -/
def veGrid (h w : Nat) (img : Mat) : Mat :=
  fun a b =>
    if a < 2 * h ∧ b < 2 * w ∧ b % 2 = 0 then VE h img a (b / 2) else zeroPix

/-- The `in3` tap as a function of the source data (line 190's
`j >= v_res - 2` boundary check, else `VE` at source column `j + 2`). -/
def in3cl (h w : Nat) (img : Mat) (a j : Nat) : Pix :=
  if (w : Int) - 2 ≤ (j : Int) then zeroPix else VE h img a (j + 2)

/-- Closed form of the cubic outputs of one row: `cubAt … a j` is the value
stored at output column `2*j + 1` of row `a` (for `j ≤ w - 2`).  The `in0`
tap of step `j` re-reads the output of step `j - 2`; at `j = 0` it is the
explicit left-edge zero and at `j = 1` it is the never-written last column
of the row, which still holds the initial zero fill. -/
def cubAt (h w : Nat) (img : Mat) (a : Nat) : Nat → Pix
  | 0 => cubicPix zeroPix (VE h img a 0) (VE h img a 1) (in3cl h w img a 0)
  | 1 => cubicPix zeroPix (VE h img a 1) (VE h img a 2) (in3cl h w img a 1)
  | j + 2 =>
      cubicPix (cubAt h w img a j) (VE h img a (j + 2)) (VE h img a (j + 3))
        (in3cl h w img a (j + 2))

theorem innerFold_zero (body : Mat → Nat → Nat → Mat) (i : Nat) (s : Mat) :
    innerFold body i 0 s = s := rfl

theorem innerFold_succ (body : Mat → Nat → Nat → Mat) (i n : Nat) (s : Mat) :
    innerFold body i (n + 1) s = body (innerFold body i n s) i n := by
  unfold innerFold
  rw [List.range_succ, List.foldl_append]
  rfl

theorem loop2_zero (n : Nat) (body : Mat → Nat → Nat → Mat) (s : Mat) :
    loop2 0 n body s = s := rfl

theorem loop2_succ (r n : Nat) (body : Mat → Nat → Nat → Mat) (s : Mat) :
    loop2 (r + 1) n body s = innerFold body r n (loop2 r n body s) := by
  unfold loop2
  rw [List.range_succ, List.foldl_append]
  rfl

/-- One row of the anchor-copy loop fills the even columns of row `2*i`. -/
lemma pass0_inner (img : Mat) (i n : Nat) (s : Mat) (a b : Nat) :
    innerFold (pass0body img) i n s a b =
      if a = 2 * i ∧ b % 2 = 0 ∧ b < 2 * n then img i (b / 2) else s a b := by
  induction n with
  | zero =>
      rw [innerFold_zero, if_neg (by omega)]
  | succ n ih =>
      rw [innerFold_succ]
      have hstep : pass0body img (innerFold (pass0body img) i n s) i n a b =
          if a = 2 * i ∧ b = 2 * n then img i n
          else innerFold (pass0body img) i n s a b := rfl
      rw [hstep, ih]
      by_cases h1 : a = 2 * i ∧ b = 2 * n
      · rw [if_pos h1, if_pos (by omega)]
        have hb : b / 2 = n := by omega
        rw [hb]
      · rw [if_neg h1]
        by_cases h2 : a = 2 * i ∧ b % 2 = 0 ∧ b < 2 * n
        · rw [if_pos h2, if_pos (by omega)]
        · rw [if_neg h2, if_neg (by omega)]

/-- The anchor-copy loop: `st1[2i, 2j] = img[i, j]`, all other cells zero. -/
lemma pass0_loop (img : Mat) (r w : Nat) (a b : Nat) :
    loop2 r w (pass0body img) (fun _ _ => zeroPix) a b =
      if a % 2 = 0 ∧ a < 2 * r ∧ b % 2 = 0 ∧ b < 2 * w then img (a / 2) (b / 2)
      else zeroPix := by
  induction r with
  | zero =>
      rw [loop2_zero, if_neg (by omega)]
  | succ r ih =>
      rw [loop2_succ, pass0_inner, ih]
      by_cases h1 : a = 2 * r ∧ b % 2 = 0 ∧ b < 2 * w
      · rw [if_pos h1, if_pos (by omega)]
        have ha : a / 2 = r := by omega
        rw [ha]
      · rw [if_neg h1]
        by_cases h2 : a % 2 = 0 ∧ a < 2 * r ∧ b % 2 = 0 ∧ b < 2 * w
        · rw [if_pos h2, if_pos (by omega)]
        · rw [if_neg h2, if_neg (by omega)]

lemma st1_char (h w : Nat) (img : Mat) (a b : Nat) :
    st1 h w img a b =
      if a % 2 = 0 ∧ a < 2 * h ∧ b % 2 = 0 ∧ b < 2 * w then img (a / 2) (b / 2)
      else zeroPix := pass0_loop img h w a b

/-- One row of the vertical linear loop, assuming the even rows of the state
hold the anchor values. -/
lemma pass1_inner (h w : Nat) (img : Mat) (i n : Nat) (s : Mat)
    (hi : i < h)
    (heven : ∀ a b, a % 2 = 0 →
      s a b =
        if a < 2 * h ∧ b % 2 = 0 ∧ b < 2 * w then img (a / 2) (b / 2) else zeroPix) :
    n ≤ w → ∀ a b,
      innerFold (pass1body h) i n s a b =
        if a = 2 * i + 1 ∧ b % 2 = 0 ∧ b < 2 * n then linearPix h img i (b / 2)
        else s a b := by
  induction n with
  | zero =>
      intro _ a b
      rw [innerFold_zero, if_neg (by omega)]
  | succ n ih =>
      intro hn a b
      have hn' : n ≤ w := by omega
      have ihn := ih hn'
      rw [innerFold_succ]
      have hstep : pass1body h (innerFold (pass1body h) i n s) i n a b =
          if a = 2 * i + 1 ∧ b = 2 * n then
            (if i = h - 1 then
              intdiv2 (innerFold (pass1body h) i n s (2 * i) (2 * n))
            else
              padd (intdiv2 (innerFold (pass1body h) i n s (2 * i) (2 * n)))
                (intdiv2 (innerFold (pass1body h) i n s (2 * i + 2) (2 * n))))
          else innerFold (pass1body h) i n s a b := rfl
      have hr0 : innerFold (pass1body h) i n s (2 * i) (2 * n) = img i n := by
        rw [ihn (2 * i) (2 * n), if_neg (by omega),
          heven (2 * i) (2 * n) (by omega), if_pos (by omega)]
        have h1 : 2 * i / 2 = i := by omega
        have h2 : 2 * n / 2 = n := by omega
        rw [h1, h2]
      rw [hstep, hr0, ihn a b]
      by_cases hlast : i = h - 1
      · rw [if_pos hlast]
        by_cases h1 : a = 2 * i + 1 ∧ b = 2 * n
        · rw [if_pos h1, if_pos (by omega)]
          have hb : b / 2 = n := by omega
          rw [hb, linearPix, if_pos hlast]
        · rw [if_neg h1]
          by_cases h2 : a = 2 * i + 1 ∧ b % 2 = 0 ∧ b < 2 * n
          · rw [if_pos h2, if_pos (by omega)]
          · rw [if_neg h2, if_neg (by omega)]
      · have hr2 : innerFold (pass1body h) i n s (2 * i + 2) (2 * n) =
            img (i + 1) n := by
          rw [ihn (2 * i + 2) (2 * n), if_neg (by omega),
            heven (2 * i + 2) (2 * n) (by omega), if_pos (by omega)]
          have h1 : (2 * i + 2) / 2 = i + 1 := by omega
          have h2 : 2 * n / 2 = n := by omega
          rw [h1, h2]
        rw [if_neg hlast, hr2]
        by_cases h1 : a = 2 * i + 1 ∧ b = 2 * n
        · rw [if_pos h1, if_pos (by omega)]
          have hb : b / 2 = n := by omega
          rw [hb, linearPix, if_neg hlast]
        · rw [if_neg h1]
          by_cases h2 : a = 2 * i + 1 ∧ b % 2 = 0 ∧ b < 2 * n
          · rw [if_pos h2, if_pos (by omega)]
          · rw [if_neg h2, if_neg (by omega)]

/-- The vertical linear loop fills the even columns of the odd rows below
`2*r` with `linearPix`, leaving everything else as `st1` left it. -/
lemma pass1_loop (h w : Nat) (img : Mat) :
    ∀ r, r ≤ h → ∀ a b,
      loop2 r w (pass1body h) (st1 h w img) a b =
        if a % 2 = 1 ∧ a < 2 * r ∧ b % 2 = 0 ∧ b < 2 * w then
          linearPix h img (a / 2) (b / 2)
        else st1 h w img a b := by
  intro r
  induction r with
  | zero =>
      intro _ a b
      rw [loop2_zero, if_neg (by omega)]
  | succ r ih =>
      intro hr a b
      have hr' : r ≤ h := by omega
      have ihr := ih hr'
      rw [loop2_succ]
      have heven : ∀ a b, a % 2 = 0 →
          loop2 r w (pass1body h) (st1 h w img) a b =
            if a < 2 * h ∧ b % 2 = 0 ∧ b < 2 * w then img (a / 2) (b / 2)
            else zeroPix := by
        intro a b hab
        rw [ihr a b, if_neg (by omega), st1_char]
        by_cases h1 : a % 2 = 0 ∧ a < 2 * h ∧ b % 2 = 0 ∧ b < 2 * w
        · rw [if_pos h1, if_pos (by omega)]
        · rw [if_neg h1, if_neg (by omega)]
      rw [pass1_inner h w img r w _ (by omega) heven (le_refl w) a b, ihr a b]
      by_cases h1 : a = 2 * r + 1 ∧ b % 2 = 0 ∧ b < 2 * w
      · rw [if_pos h1, if_pos (by omega)]
        have ha : a / 2 = r := by omega
        rw [ha]
      · rw [if_neg h1]
        by_cases h2 : a % 2 = 1 ∧ a < 2 * r ∧ b % 2 = 0 ∧ b < 2 * w
        · rw [if_pos h2, if_pos (by omega)]
        · rw [if_neg h2, if_neg (by omega)]

/-- After the two vertical loops the working array holds exactly the
VerticalExpansion grid: `VE` at cells `(a, 2*j)` with `a < 2*h`, `j < w`,
zero everywhere else. -/
lemma st2_char (h w : Nat) (img : Mat) (a b : Nat) :
    st2 h w img a b = veGrid h w img a b := by
  have hmain := pass1_loop h w img h (le_refl h) a b
  show loop2 h w (pass1body h) (st1 h w img) a b = _
  rw [hmain, st1_char, veGrid]
  by_cases h1 : a % 2 = 1 ∧ a < 2 * h ∧ b % 2 = 0 ∧ b < 2 * w
  · rw [if_pos h1, if_pos (by omega), VE, if_neg (by omega)]
  · rw [if_neg h1]
    by_cases h2 : a % 2 = 0 ∧ a < 2 * h ∧ b % 2 = 0 ∧ b < 2 * w
    · rw [if_pos h2, if_pos (by omega), VE, if_pos (by omega)]
    · rw [if_neg h2, if_neg (by omega)]

lemma upd_eq (s : Mat) (i j : Nat) (v : Pix) (a b : Nat) :
    upd s i j v a b = if a = i ∧ b = j then v else s a b := rfl

/-- Shape of `pass2body` with its `let` bindings spelled out. -/
lemma pass2body_eq (w : Nat) (s : Mat) (i j : Nat) :
    pass2body w s i j =
      if (j : Int) = (w : Int) - 1 then s
      else
        upd s i (2 * j + 1)
          (cubicPix (in0_tap s w i j) (s i (2 * j)) (s i (2 * j + 2))
            (if (w : Int) - 2 ≤ (j : Int) then zeroPix else s i (2 * j + 4))) := rfl

/-- The cubic loop on row `i` leaves every other row unchanged. -/
lemma pass2_frame (w i : Nat) (s : Mat) :
    ∀ n a b, a ≠ i → innerFold (pass2body w) i n s a b = s a b := by
  intro n
  induction n with
  | zero =>
      intro a b _
      rw [innerFold_zero]
  | succ n ih =>
      intro a b ha
      rw [innerFold_succ, pass2body_eq]
      by_cases hskip : ((n : Int) = (w : Int) - 1)
      · rw [if_pos hskip, ih a b ha]
      · rw [if_neg hskip, upd_eq, if_neg (fun hc => ha hc.1), ih a b ha]

/-- Unfolding equation of `cubAt` that exposes the recursive `in0` tap. -/
lemma cubAt_eq (h w : Nat) (img : Mat) (a j : Nat) :
    cubAt h w img a j =
      cubicPix
        (if j = 0 then zeroPix
         else if j = 1 then zeroPix else cubAt h w img a (j - 2))
        (VE h img a j) (VE h img a (j + 1)) (in3cl h w img a j) := by
  match j with
  | 0 => rfl
  | 1 => rfl
  | k + 2 => rfl

/-- One row of the cubic loop, assuming row `i` of the incoming state holds
the VerticalExpansion grid: after `n` steps the columns `2*c + 1` with
`c < n`, `c ≤ w - 2` hold the cubic values `cubAt`, everything else is
unchanged. -/
lemma pass2_inner (h w : Nat) (img : Mat) (i : Nat) (s : Mat)
    (hi : i < 2 * h)
    (hrow : ∀ b, s i b = veGrid h w img i b) :
    ∀ n, n ≤ w → ∀ b,
      innerFold (pass2body w) i n s i b =
        if b % 2 = 1 ∧ b < 2 * n ∧ b + 1 < 2 * w then
          cubAt h w img i ((b - 1) / 2)
        else s i b := by
  intro n
  induction n with
  | zero =>
      intro _ b
      rw [innerFold_zero, if_neg (by omega)]
  | succ n ih =>
      intro hn b
      have hn' : n ≤ w := by omega
      have ihn := ih hn'
      rw [innerFold_succ, pass2body_eq]
      by_cases hskip : ((n : Int) = (w : Int) - 1)
      · rw [if_pos hskip, ihn b]
        by_cases h1 : b % 2 = 1 ∧ b < 2 * n ∧ b + 1 < 2 * w
        · rw [if_pos h1, if_pos (by omega)]
        · rw [if_neg h1, if_neg (by omega)]
      · have hnw : n + 1 ≤ w - 1 := by omega
        have hin1 : innerFold (pass2body w) i n s i (2 * n) = VE h img i n := by
          rw [ihn (2 * n), if_neg (by omega), hrow (2 * n), veGrid,
            if_pos (by omega)]
          have hd : 2 * n / 2 = n := by omega
          rw [hd]
        have hin2 : innerFold (pass2body w) i n s i (2 * n + 2) =
            VE h img i (n + 1) := by
          rw [ihn (2 * n + 2), if_neg (by omega), hrow (2 * n + 2), veGrid,
            if_pos (by omega)]
          have hd : (2 * n + 2) / 2 = n + 1 := by omega
          rw [hd]
        have hin3 : (if (w : Int) - 2 ≤ (n : Int) then zeroPix
            else innerFold (pass2body w) i n s i (2 * n + 4)) =
            in3cl h w img i n := by
          by_cases h3 : (w : Int) - 2 ≤ (n : Int)
          · rw [if_pos h3, in3cl, if_pos h3]
          · rw [if_neg h3, in3cl, if_neg h3, ihn (2 * n + 4), if_neg (by omega),
              hrow (2 * n + 4), veGrid, if_pos (by omega)]
            have hd : (2 * n + 4) / 2 = n + 2 := by omega
            rw [hd]
        have hin0 : in0_tap (innerFold (pass2body w) i n s) w i n =
            (if n = 0 then zeroPix
             else if n = 1 then zeroPix else cubAt h w img i (n - 2)) := by
          by_cases h0 : n = 0
          · rw [h0, if_pos rfl]
            rfl
          · rw [in0_tap, if_neg h0, if_neg h0]
            by_cases hone : n = 1
            · have hp : pyCol (2 * w) (2 * (n : Int) - 3) = 2 * w - 1 := by
                rw [pyCol, if_pos (by omega)]
                omega
              rw [if_pos hone, hp, ihn (2 * w - 1), if_neg (by omega),
                hrow (2 * w - 1), veGrid, if_neg (by omega)]
            · have hp : pyCol (2 * w) (2 * (n : Int) - 3) = 2 * (n - 2) + 1 := by
                rw [pyCol, if_neg (by omega)]
                omega
              rw [if_neg hone, hp, ihn (2 * (n - 2) + 1), if_pos (by omega)]
              have hd : (2 * (n - 2) + 1 - 1) / 2 = n - 2 := by omega
              rw [hd]
        have hval : cubicPix (in0_tap (innerFold (pass2body w) i n s) w i n)
            (innerFold (pass2body w) i n s i (2 * n))
            (innerFold (pass2body w) i n s i (2 * n + 2))
            (if (w : Int) - 2 ≤ (n : Int) then zeroPix
             else innerFold (pass2body w) i n s i (2 * n + 4)) =
            cubAt h w img i n := by
          rw [hin0, hin1, hin2, hin3, cubAt_eq h w img i n]
        rw [if_neg hskip, upd_eq]
        by_cases hb : b = 2 * n + 1
        · rw [if_pos ⟨rfl, hb⟩, hval, if_pos (by omega)]
          have hd : (b - 1) / 2 = n := by omega
          rw [hd]
        · rw [if_neg (fun hc => hb hc.2), ihn b]
          by_cases h1 : b % 2 = 1 ∧ b < 2 * n ∧ b + 1 < 2 * w
          · rw [if_pos h1, if_pos (by omega)]
          · rw [if_neg h1, if_neg (by omega)]

/-- The cubic loop over the first `r` rows: each processed row holds the
cubic values at its written odd columns; everything else still holds the
`st2` (VerticalExpansion grid) contents. -/
lemma pass2_loop (h w : Nat) (img : Mat) :
    ∀ r, r ≤ 2 * h → ∀ a b,
      loop2 r w (pass2body w) (st2 h w img) a b =
        if a < r ∧ b % 2 = 1 ∧ b + 1 < 2 * w then cubAt h w img a ((b - 1) / 2)
        else st2 h w img a b := by
  intro r
  induction r with
  | zero =>
      intro _ a b
      rw [loop2_zero, if_neg (by omega)]
  | succ r ih =>
      intro hr a b
      have ihr := ih (by omega)
      rw [loop2_succ]
      by_cases ha : a = r
      · subst ha
        have hrow : ∀ b, loop2 a w (pass2body w) (st2 h w img) a b =
            veGrid h w img a b := by
          intro b
          rw [ihr a b, if_neg (by omega), st2_char]
        have hmain := pass2_inner h w img a
          (loop2 a w (pass2body w) (st2 h w img)) (by omega) hrow w (le_refl w) b
        rw [hmain]
        by_cases h1 : b % 2 = 1 ∧ b < 2 * w ∧ b + 1 < 2 * w
        · rw [if_pos h1, if_pos (by omega)]
        · rw [if_neg h1, ihr a b, if_neg (by omega), if_neg (by omega)]
      · rw [pass2_frame w r _ w a b ha, ihr a b]
        by_cases h1 : a < r ∧ b % 2 = 1 ∧ b + 1 < 2 * w
        · rw [if_pos h1, if_pos (by omega)]
        · rw [if_neg h1, if_neg (by omega)]

/-- Full characterization of the upscaled image: even columns carry the
VerticalExpansion, the last column is the untouched zero fill, and the other
odd columns carry the cubic interpolation values. -/
lemma race_char (h w : Nat) (img : Mat) (a b : Nat)
    (ha : a < 2 * h) (hb : b < 2 * w) :
    race h w img a b =
      if b % 2 = 0 then VE h img a (b / 2)
      else if b = 2 * w - 1 then zeroPix
      else cubAt h w img a ((b - 1) / 2) := by
  show loop2 (2 * h) w (pass2body w) (st2 h w img) a b = _
  rw [pass2_loop h w img (2 * h) (le_refl _) a b]
  by_cases h0 : b % 2 = 0
  · rw [if_neg (by omega), st2_char, veGrid, if_pos (by omega), if_pos h0]
  · rw [if_neg h0]
    by_cases h1 : b = 2 * w - 1
    · rw [if_neg (by omega), st2_char, veGrid, if_neg (by omega), if_pos h1]
    · rw [if_pos (by omega), if_neg h1]

/-- Row `i` of the working array at the moment the cubic loop reaches
step `(i, j)`. -/
lemma pass2state_char (h w : Nat) (img : Mat) (i j : Nat)
    (hi : i < 2 * h) (hj : j ≤ w) (b : Nat) :
    pass2stateAt h w img i j i b =
      if b % 2 = 1 ∧ b < 2 * j ∧ b + 1 < 2 * w then
        cubAt h w img i ((b - 1) / 2)
      else veGrid h w img i b := by
  have hrow : ∀ b, loop2 i w (pass2body w) (st2 h w img) i b =
      veGrid h w img i b := by
    intro b
    rw [pass2_loop h w img i (by omega) i b, if_neg (by omega), st2_char]
  show innerFold (pass2body w) i j (loop2 i w (pass2body w) (st2 h w img)) i b = _
  rw [pass2_inner h w img i _ hi hrow j hj b]
  by_cases h1 : b % 2 = 1 ∧ b < 2 * j ∧ b + 1 < 2 * w
  · rw [if_pos h1, if_pos h1]
  · rw [if_neg h1, if_neg h1, hrow b]

/-- The value the `in0` tap reads: zero for `j ≤ 1`, the previously stored
cubic output for `j ≥ 2`. -/
lemma in0used_char (h w : Nat) (img : Mat) (i j : Nat)
    (hi : i < 2 * h) (hj : j < w) (h1 : 1 ≤ j) :
    in0used h w img i j =
      if j = 1 then zeroPix else cubAt h w img i (j - 2) := by
  rw [in0used, in0_tap, if_neg (by omega)]
  by_cases hone : j = 1
  · have hp : pyCol (2 * w) (2 * (j : Int) - 3) = 2 * w - 1 := by
      rw [pyCol, if_pos (by omega)]
      omega
    rw [if_pos hone, hp, pass2state_char h w img i j hi (by omega),
      if_neg (by omega), veGrid, if_neg (by omega)]
  · have hp : pyCol (2 * w) (2 * (j : Int) - 3) = 2 * (j - 2) + 1 := by
      rw [pyCol, if_neg (by omega)]
      omega
    rw [if_neg hone, hp, pass2state_char h w img i j hi (by omega),
      if_pos (by omega)]
    have hd : (2 * (j - 2) + 1 - 1) / 2 = j - 2 := by omega
    rw [hd]

lemma tdiv2_range (x : Int) (h0 : 0 ≤ x) (h255 : x ≤ 255) :
    0 ≤ Int.tdiv x 2 ∧ Int.tdiv x 2 ≤ 127 := by
  obtain ⟨n, rfl⟩ := Int.eq_ofNat_of_zero_le h0
  have key : Int.tdiv (n : Int) 2 = ((n / 2 : Nat) : Int) := by
    rw [show (2 : Int) = ((2 : Nat) : Int) from rfl, ← Int.ofNat_tdiv]
  rw [key]
  omega

lemma cubicVal_range (a0 a1 a2 a3 : Int) :
    0 ≤ cubicVal a0 a1 a2 a3 ∧ cubicVal a0 a1 a2 a3 ≤ 255 := by
  simp only [cubicVal]
  split_ifs <;> omega

lemma VE_range (h w : Nat) (img : Mat)
    (himg : ∀ i j, i < h → j < w → ∀ c, 0 ≤ img i j c ∧ img i j c ≤ 255)
    (a j : Nat) (ha : a < 2 * h) (hj : j < w) (c : Fin 3) :
    0 ≤ VE h img a j c ∧ VE h img a j c ≤ 255 := by
  rw [VE]
  by_cases he : a % 2 = 0
  · rw [if_pos he]
    exact himg (a / 2) j (by omega) hj c
  · rw [if_neg he, linearPix]
    by_cases hl : a / 2 = h - 1
    · rw [if_pos hl]
      have hb := himg (a / 2) j (by omega) hj c
      have hv : intdiv2 (img (a / 2) j) c = Int.tdiv (img (a / 2) j c) 2 := rfl
      rw [hv]
      have := tdiv2_range (img (a / 2) j c) hb.1 hb.2
      omega
    · rw [if_neg hl]
      have hb1 := himg (a / 2) j (by omega) hj c
      have hb2 := himg (a / 2 + 1) j (by omega) hj c
      have hv : padd (intdiv2 (img (a / 2) j)) (intdiv2 (img (a / 2 + 1) j)) c =
          Int.tdiv (img (a / 2) j c) 2 + Int.tdiv (img (a / 2 + 1) j c) 2 := rfl
      rw [hv]
      have t1 := tdiv2_range (img (a / 2) j c) hb1.1 hb1.2
      have t2 := tdiv2_range (img (a / 2 + 1) j c) hb2.1 hb2.2
      omega

/-- C2: for every input matrix and all valid `i < h`, `j < w`, the upscaled
image satisfies `UpscaledImage[2i, 2j] = PixelMatrix[i, j]`: the anchor
pixels written by the copy loop are not overwritten by the linear pass
(which writes odd rows) or the cubic pass (which writes odd columns). -/
theorem race_anchor (h w : Nat) (img : Mat) (i j : Nat)
    (hi : i < h) (hj : j < w) :
    race h w img (2 * i) (2 * j) = img i j := by
  rw [race_char h w img (2 * i) (2 * j) (by omega) (by omega),
    if_pos (by omega), VE, if_pos (by omega)]
  have h1 : 2 * i / 2 = i := by omega
  have h2 : 2 * j / 2 = j := by omega
  rw [h1, h2]

theorem race_anchor_witness :
    race 1 1 (fun _ _ _ => (9 : Int)) (2 * 0) (2 * 0) =
      (fun _ _ _ => (9 : Int)) 0 0 :=
  race_anchor 1 1 (fun _ _ _ => (9 : Int)) 0 0 (by decide) (by decide)

/-- C4: if every channel of the input lies in `[0, 255]`, so does every
channel of every pixel of the upscaled output: anchor pixels are copies,
linear-row values are sums of two halves (at most `127 + 127`), cubic
values are saturated to `[0, 255]`, and the right-edge column keeps its
zero fill. -/
theorem race_output_range (h w : Nat) (img : Mat)
    (himg : ∀ i j, i < h → j < w → ∀ c, 0 ≤ img i j c ∧ img i j c ≤ 255)
    (a b : Nat) (ha : a < 2 * h) (hb : b < 2 * w) (c : Fin 3) :
    0 ≤ race h w img a b c ∧ race h w img a b c ≤ 255 := by
  rw [race_char h w img a b ha hb]
  by_cases h0 : b % 2 = 0
  · rw [if_pos h0]
    exact VE_range h w img himg a (b / 2) ha (by omega) c
  · rw [if_neg h0]
    by_cases h1 : b = 2 * w - 1
    · rw [if_pos h1]
      have hz : zeroPix c = 0 := rfl
      rw [hz]
      omega
    · rw [if_neg h1, cubAt_eq]
      exact cubicVal_range _ _ _ _

theorem race_output_range_witness :
    0 ≤ race 1 2 (fun _ _ _ => (200 : Int)) 1 1 0 ∧
      race 1 2 (fun _ _ _ => (200 : Int)) 1 1 0 ≤ 255 :=
  race_output_range 1 2 (fun _ _ _ => (200 : Int))
    (fun i j hi hj c => show (0 : Int) ≤ 200 ∧ (200 : Int) ≤ 255 by decide)
    1 1 (by decide) (by decide) 0

/-- C3: the halving step `intdiv2` is truncating division by 2 (round toward
zero, per channel): `halve(-3) = -1` and not the floor value `-2`; halving
commutes with negation (the round-toward-zero law); and on the cubic path
the synthetic input `(in0, in1, in2, in3) = (0, 3, 0, 0)` produces the
negative intermediate `t32 = -5` whose truncating half gives `t321 = -2`,
whereas a floor-division halving would give `-3`. -/
theorem intdiv2_truncates :
    (∀ (d : Pix) (c : Fin 3), intdiv2 d c = Int.tdiv (d c) 2) ∧
    (∀ c : Fin 3, intdiv2 (fun _ => (-3 : Int)) c = -1) ∧
    intdiv2 (fun _ => (-3 : Int)) 0 ≠ -2 ∧
    Int.fdiv (-3) 2 = -2 ∧
    (∀ (d : Pix) (c : Fin 3), intdiv2 (fun x => -(d x)) c = -(intdiv2 d c)) ∧
    t32v 0 3 0 0 = -5 ∧
    t321v 0 3 0 0 = -2 ∧
    Int.fdiv (t32v 0 3 0 0) 2 + t1v 0 3 0 0 = -3 := by
  refine ⟨fun d c => rfl, fun c => ?_, by decide, by decide,
    fun d c => ?_, by decide, by decide, by decide⟩
  · show Int.tdiv (-3) 2 = -1
    decide
  · show Int.tdiv (-(d c)) 2 = -(Int.tdiv (d c) 2)
    exact Int.neg_tdiv (d c) 2

/-- C9: for `1 ≤ j < w` the `in0` tap reads an odd, in-bounds column of the
working image: the raw index `2j - 3` is always a valid numpy index; for
`j = 1` it resolves by negative indexing to the last column `2w - 1`, which
the cubic pass never writes and which stays the zero vector (also in the
final output); for `j ≥ 2` it is the cubic result stored at destination
column `2(j-2) + 1` earlier in the same row's iteration. -/
theorem race_in0_semantics (h w : Nat) (img : Mat) (i j : Nat)
    (hi : i < 2 * h) (hj1 : 1 ≤ j) (hjw : j < w) :
    (-(2 * (w : Int)) ≤ 2 * (j : Int) - 3 ∧ 2 * (j : Int) - 3 < 2 * (w : Int)) ∧
    pyCol (2 * w) (2 * (j : Int) - 3) % 2 = 1 ∧
    pyCol (2 * w) (2 * (j : Int) - 3) < 2 * w ∧
    (j = 1 →
      pyCol (2 * w) (2 * (j : Int) - 3) = 2 * w - 1 ∧
      in0used h w img i j = zeroPix ∧
      race h w img i (2 * w - 1) = zeroPix) ∧
    (2 ≤ j →
      in0used h w img i j = cubAt h w img i (j - 2) ∧
      pyCol (2 * w) (2 * (j : Int) - 3) = 2 * (j - 2) + 1 ∧
      race h w img i (2 * (j - 2) + 1) = cubAt h w img i (j - 2)) := by
  have hpy : pyCol (2 * w) (2 * (j : Int) - 3) =
      if j = 1 then 2 * w - 1 else 2 * (j - 2) + 1 := by
    by_cases hone : j = 1
    · rw [if_pos hone, pyCol, if_pos (by omega)]
      omega
    · rw [if_neg hone, pyCol, if_neg (by omega)]
      omega
  refine ⟨by omega, ?_, ?_, ?_, ?_⟩
  · rw [hpy]
    split_ifs <;> omega
  · rw [hpy]
    split_ifs <;> omega
  · intro hone
    refine ⟨by rw [hpy, if_pos hone], ?_, ?_⟩
    · rw [in0used_char h w img i j hi hjw (by omega), if_pos hone]
    · rw [race_char h w img i (2 * w - 1) hi (by omega), if_neg (by omega),
        if_pos rfl]
  · intro htwo
    refine ⟨?_, by rw [hpy, if_neg (by omega)], ?_⟩
    · rw [in0used_char h w img i j hi hjw (by omega), if_neg (by omega)]
    · rw [race_char h w img i (2 * (j - 2) + 1) hi (by omega),
        if_neg (by omega), if_neg (by omega)]
      have hd : (2 * (j - 2) + 1 - 1) / 2 = j - 2 := by omega
      rw [hd]

theorem race_in0_semantics_witness :
    in0used 1 3 (fun _ _ _ => (255 : Int)) 0 2 =
      cubAt 1 3 (fun _ _ _ => (255 : Int)) 0 (2 - 2) :=
  ((race_in0_semantics 1 3 (fun _ _ _ => (255 : Int)) 0 2 (by decide) (by decide)
    (by decide)).2.2.2.2 (by decide)).1

/-- C1 (amended): for every source column `j` whose interpolated output is
computed (`j ≠ width - 1`), the tap `in0` for `j > 0` does not read the
VerticalExpansion — it reads the (already computed) cubic contents of the
upscaled image itself at the odd column `2j - 3` (resolved by numpy
negative indexing for `j = 1`); for `j = 0` it is the zero vector. -/
theorem race_in0_final (h w : Nat) (img : Mat) (i j : Nat)
    (hi : i < 2 * h) (hj : j < w) (hjn : j ≠ w - 1) :
    in0used h w img i j =
      if j = 0 then zeroPix
      else race h w img i (pyCol (2 * w) (2 * (j : Int) - 3)) := by
  by_cases h0 : j = 0
  · rw [if_pos h0, in0used, in0_tap, if_pos h0]
  · rw [if_neg h0, in0used_char h w img i j hi hj (by omega)]
    by_cases hone : j = 1
    · have hp : pyCol (2 * w) (2 * (j : Int) - 3) = 2 * w - 1 := by
        rw [pyCol, if_pos (by omega)]
        omega
      rw [if_pos hone, hp, race_char h w img i (2 * w - 1) hi (by omega),
        if_neg (by omega), if_pos rfl]
    · have hp : pyCol (2 * w) (2 * (j : Int) - 3) = 2 * (j - 2) + 1 := by
        rw [pyCol, if_neg (by omega)]
        omega
      rw [if_neg hone, hp, race_char h w img i (2 * (j - 2) + 1) hi (by omega),
        if_neg (by omega), if_neg (by omega)]
      have hd : (2 * (j - 2) + 1 - 1) / 2 = j - 2 := by omega
      rw [hd]

theorem race_in0_final_witness :
    in0used 1 4 (fun _ _ _ => (255 : Int)) 0 2 =
      (if (2 : Nat) = 0 then zeroPix
       else race 1 4 (fun _ _ _ => (255 : Int)) 0
         (pyCol (2 * 4) (2 * ((2 : Nat) : Int) - 3))) :=
  race_in0_final 1 4 (fun _ _ _ => (255 : Int)) 0 2 (by decide) (by decide)
    (by decide)

/-- C1 (counterexample): at the all-255 `1 × 4` input, row 0, source column
`j = 2` — a column whose interpolated output is computed, since
`j ≠ width - 1 = 3` — the tap `in0` actually read by the cubic pass is
`255` per channel (the cubic output stored at column 1 two steps earlier),
while the VerticalExpansion grid holds the zero vector at column
`2j - 3 = 1` — so `in0` is not `VerticalExpansion[row, 2j - 3]`. -/
theorem race_in0_not_ve :
    in0used 1 4 (fun _ _ _ => (255 : Int)) 0 2 ≠
      veGrid 1 4 (fun _ _ _ => (255 : Int)) 0 1 := by
  decide

/-- Binary digits of `n`, most significant first, empty for `0` (structural
fuel: `fuel` only needs to dominate `n`). -/
def natToBinAux : Nat → Nat → List Char
  | 0, _ => []
  | fuel + 1, n =>
      if n = 0 then []
      else natToBinAux fuel (n / 2) ++ [if n % 2 = 1 then '1' else '0']

/-- Python `format(n, "b")` / `np.binary_repr(n)` for `n ≥ 0`: minimal
binary digits, `"0"` for zero. -/
def binStr (n : Nat) : List Char :=
  if n = 0 then ['0'] else natToBinAux n n

/-- Left zero-padding to a minimum field width, as in `format(n, "024b")`
and `np.binary_repr(n, width)`. -/
def padTo (wdt : Nat) (s : List Char) : List Char :=
  List.replicate (wdt - s.length) '0' ++ s

/-- Python `int(s, 2)` on a string of binary digits. -/
def parseBin (s : List Char) : Nat :=
  s.foldl (fun acc c => 2 * acc + (if c = '1' then 1 else 0)) 0

/-- Embedding of `np.binary_repr(v, width=8)` as applied per channel by
`rgb_decimal_to_binary` (lines 47-50) to the `uint8` pixel matrix. -/
def binary_repr8 (v : Nat) : List Char := padTo 8 (binStr v)

/-- The 24-bit packing loop of `combine_binary_to_24_bit` (lines 58-60):
`for k in range(3): combined = (combined << 8) | int(binary_matrix[i,j,k], 2)`. -/
def combinePixel (p : Fin 3 → Nat) : Nat :=
  (List.finRange 3).foldl
    (fun acc k => (acc <<< 8) ||| parseBin (binary_repr8 (p k))) 0

/-- One 80-character instruction word (lines 61-64): opcode `0001`, 52 zero
bits, then the payload `format(combined, "024b")`. -/
def instructionWord (p : Fin 3 → Nat) : List Char :=
  ('0' :: '0' :: '0' :: '1' :: List.replicate 52 '0') ++
    padTo 24 (binStr (combinePixel p))

/-- Embedding of `combine_binary_to_24_bit` (src/upscaler/runsim.py lines 53-66),
composed with `rgb_decimal_to_binary`: one instruction word per pixel, rows
outer, columns inner.  `hgt`/`wdt` are the matrix dimensions
(`binary_matrix.shape`). -/
def combine_binary_to_24_bit (hgt wdt : Nat) (m : Nat → Nat → Fin 3 → Nat) :
    List (List Char) :=
  (List.range hgt).flatMap
    (fun i => (List.range wdt).map (fun j => instructionWord (m i j)))

/-- First fixed trailer line of the trace file (line 75). -/
def trailer0 : List Char :=
  ("01100000000000000000000000000000000000000000000011111111111111111111111111111111").toList

/-- Second fixed trailer line of the trace file (line 76). -/
def trailer1 : List Char :=
  ("01010000000000000000000000000000000000000000000000000000000000000000000000000000").toList

/-- Third fixed trailer line of the trace file (line 77). -/
def trailer2 : List Char :=
  ("00110000000000000000000000000000000000000000000000000000000000000000000000000000").toList

/-- Embedding of `write_combined_numbers_to_file` (lines 69-77) as the list of lines of
the trace artifact it writes: every instruction word, then the three fixed
trailer lines, independent of image content. -/
def write_combined_numbers_to_file (ws : List (List Char)) : List (List Char) :=
  ws ++ [trailer0, trailer1, trailer2]

/-- Manual decoding for the round-trip property: take the low 24 bits of a
word and split them as three 8-bit fields, most significant first. -/
def decode24 (wd : List Char) : Nat × Nat × Nat :=
  let v := parseBin (List.drop 56 wd)
  (v / 65536, v / 256 % 256, v % 256)

/-- The in-bounds condition of the decoder loop: every flat sample index the
loop reads — `(i*new_h + j)*3 + off` for `off < 3` — is inside the sample
array.  numpy raises `IndexError` on the first out-of-range read. -/
def inBounds (len new_v new_h : Nat) : Bool :=
  (List.range new_v).all fun i =>
    (List.range new_h).all fun j =>
      (List.range 3).all fun off => Nat.blt ((i * new_h + j) * 3 + off) len

/-- Embedding of `parse_image` (src/upscaler/runsim.py lines 109-132), restricted to its
numeric effect.  `h_res`/`v_res` are the source width/height read from
`image.size`; the output has `2*v_res` rows and `2*h_res` columns and
assigns destination channel `c` from the sample at flat offset `2 - c` of
its 3-sample group.  The image is written only after the loop completes, so
the result is `none` (no partial output) exactly when some read is out of
range. -/
def parse_image (samples : List Int) (h_res v_res : Nat) :
    Option (Nat → Nat → Fin 3 → Int) :=
  if inBounds samples.length (2 * v_res) (2 * h_res) then
    some (fun i j c =>
      if i < 2 * v_res ∧ j < 2 * h_res then
        samples.getD ((i * (2 * h_res) + j) * 3 + (2 - (c : Nat))) 0
      else 0)
  else none

lemma parseBin_foldl (t : List Char) (acc : Nat) :
    t.foldl (fun a c => 2 * a + (if c = '1' then 1 else 0)) acc =
      acc * 2 ^ t.length + parseBin t := by
  induction t generalizing acc with
  | nil =>
      simp [parseBin]
  | cons c t ih =>
      rw [List.foldl_cons, ih]
      have hp : parseBin (c :: t) =
          (if c = '1' then 1 else 0) * 2 ^ t.length + parseBin t := by
        rw [parseBin, List.foldl_cons]
        have := ih (2 * 0 + if c = '1' then 1 else 0)
        simpa [parseBin] using this
      rw [hp, List.length_cons]
      ring

lemma parseBin_append (s t : List Char) :
    parseBin (s ++ t) = parseBin s * 2 ^ t.length + parseBin t := by
  rw [parseBin, List.foldl_append, ← parseBin, parseBin_foldl]

lemma parseBin_replicate_zero (k : Nat) :
    parseBin (List.replicate k '0') = 0 := by
  induction k with
  | zero => rfl
  | succ k ih =>
      rw [List.replicate_succ, parseBin, List.foldl_cons]
      simpa [parseBin] using ih

lemma parseBin_padTo (k : Nat) (s : List Char) :
    parseBin (padTo k s) = parseBin s := by
  rw [padTo, parseBin_append, parseBin_replicate_zero]
  ring

lemma natToBinAux_parse : ∀ fuel n, n ≤ fuel →
    parseBin (natToBinAux fuel n) = n := by
  intro fuel
  induction fuel with
  | zero =>
      intro n hn
      have h0 : n = 0 := by omega
      rw [h0, natToBinAux]
      rfl
  | succ fuel ih =>
      intro n hn
      rw [natToBinAux]
      by_cases h0 : n = 0
      · rw [if_pos h0, h0]
        rfl
      · rw [if_neg h0, parseBin_append, ih (n / 2) (by omega)]
        have hb : parseBin [if n % 2 = 1 then '1' else '0'] = n % 2 := by
          by_cases h2 : n % 2 = 1
          · rw [if_pos h2, h2]
            rfl
          · rw [if_neg h2, show n % 2 = 0 from by omega]
            rfl
        rw [hb, List.length_singleton]
        omega

lemma natToBinAux_length : ∀ fuel n k, n ≤ fuel → n < 2 ^ k →
    (natToBinAux fuel n).length ≤ k := by
  intro fuel
  induction fuel with
  | zero =>
      intro n k hn _
      rw [show n = 0 from by omega, natToBinAux]
      simp
  | succ fuel ih =>
      intro n k hn hk
      rw [natToBinAux]
      by_cases h0 : n = 0
      · rw [if_pos h0]
        simp
      · rw [if_neg h0, List.length_append, List.length_singleton]
        have hk1 : 1 ≤ k := by
          by_contra hc
          rw [show k = 0 from by omega, pow_zero] at hk
          omega
        have h2k : 2 ^ k = 2 ^ (k - 1) * 2 := by
          rw [← pow_succ, show k - 1 + 1 = k from by omega]
        have hdiv : n / 2 < 2 ^ (k - 1) := by omega
        have := ih (n / 2) (k - 1) (by omega) hdiv
        omega

lemma natToBinAux_chars : ∀ fuel n c, c ∈ natToBinAux fuel n →
    c = '0' ∨ c = '1' := by
  intro fuel
  induction fuel with
  | zero =>
      intro n c hc
      rw [natToBinAux] at hc
      simp at hc
  | succ fuel ih =>
      intro n c hc
      rw [natToBinAux] at hc
      by_cases h0 : n = 0
      · rw [if_pos h0] at hc
        simp at hc
      · rw [if_neg h0, List.mem_append] at hc
        rcases hc with hc | hc
        · exact ih _ _ hc
        · rw [List.mem_singleton] at hc
          by_cases h2 : n % 2 = 1
          · rw [if_pos h2] at hc
            right
            exact hc
          · rw [if_neg h2] at hc
            left
            exact hc

lemma parseBin_binStr (n : Nat) : parseBin (binStr n) = n := by
  rw [binStr]
  by_cases h0 : n = 0
  · rw [if_pos h0, h0]
    rfl
  · rw [if_neg h0]
    exact natToBinAux_parse n n (le_refl n)

lemma binStr_length_le (n k : Nat) (h1 : 1 ≤ k) (hk : n < 2 ^ k) :
    (binStr n).length ≤ k := by
  rw [binStr]
  by_cases h0 : n = 0
  · rw [if_pos h0, List.length_singleton]
    omega
  · rw [if_neg h0]
    exact natToBinAux_length n n k (le_refl n) hk

lemma binStr_chars (n : Nat) : ∀ c ∈ binStr n, c = '0' ∨ c = '1' := by
  intro c hc
  rw [binStr] at hc
  by_cases h0 : n = 0
  · rw [if_pos h0, List.mem_singleton] at hc
    left
    exact hc
  · rw [if_neg h0] at hc
    exact natToBinAux_chars n n c hc

lemma padTo_length (k : Nat) (s : List Char) (h : s.length ≤ k) :
    (padTo k s).length = k := by
  rw [padTo, List.length_append, List.length_replicate]
  omega

lemma padTo_chars (k : Nat) (s : List Char)
    (hs : ∀ c ∈ s, c = '0' ∨ c = '1') :
    ∀ c ∈ padTo k s, c = '0' ∨ c = '1' := by
  intro c hc
  rw [padTo, List.mem_append] at hc
  rcases hc with hc | hc
  · left
    exact List.eq_of_mem_replicate hc
  · exact hs c hc

lemma shiftLeft_lor_eq (a b n : Nat) (hb : b < 2 ^ n) :
    (a <<< n) ||| b = a * 2 ^ n + b := by
  apply Nat.eq_of_testBit_eq
  intro i
  rw [Nat.testBit_lor, Nat.testBit_shiftLeft,
    show a * 2 ^ n + b = 2 ^ n * a + b from by ring,
    Nat.testBit_mul_pow_two_add a hb i]
  by_cases hi : i < n
  · rw [if_pos hi, show (decide (i ≥ n)) = false from by simp; omega]
    simp
  · rw [if_neg hi, show (decide (i ≥ n)) = true from by simp; omega]
    have hbf : b.testBit i = false :=
      Nat.testBit_lt_two_pow
        (lt_of_lt_of_le hb (Nat.pow_le_pow_right (by norm_num) (by omega)))
    rw [hbf]
    simp

/-- The packing loop computes `R * 2^16 + G * 2^8 + B` for byte channels. -/
lemma combinePixel_eq (p : Fin 3 → Nat)
    (h0 : p 0 < 256) (h1 : p 1 < 256) (h2 : p 2 < 256) :
    combinePixel p = p 0 * 65536 + p 1 * 256 + p 2 := by
  have hr : ∀ k : Fin 3, parseBin (binary_repr8 (p k)) = p k := by
    intro k
    rw [binary_repr8, parseBin_padTo, parseBin_binStr]
  rw [combinePixel, show (List.finRange 3) = [0, 1, 2] from rfl]
  simp only [List.foldl_cons, List.foldl_nil]
  rw [hr 0, hr 1, hr 2, Nat.zero_shiftLeft, Nat.zero_or,
    shiftLeft_lor_eq (p 0) (p 1) 8 (by omega),
    shiftLeft_lor_eq (p 0 * 2 ^ 8 + p 1) (p 2) 8 (by omega)]
  have h8 : (2 : Nat) ^ 8 = 256 := by norm_num
  rw [h8]
  ring

lemma combinePixel_lt (p : Fin 3 → Nat)
    (h0 : p 0 < 256) (h1 : p 1 < 256) (h2 : p 2 < 256) :
    combinePixel p < 2 ^ 24 := by
  rw [combinePixel_eq p h0 h1 h2]
  omega

/-- The payload of an instruction word: 24 characters of `0`/`1` whose
binary value is the packed pixel. -/
lemma payload_facts (p : Fin 3 → Nat)
    (h0 : p 0 < 256) (h1 : p 1 < 256) (h2 : p 2 < 256) :
    (padTo 24 (binStr (combinePixel p))).length = 24 ∧
    (∀ c ∈ padTo 24 (binStr (combinePixel p)), c = '0' ∨ c = '1') ∧
    parseBin (padTo 24 (binStr (combinePixel p))) =
      p 0 * 65536 + p 1 * 256 + p 2 := by
  refine ⟨padTo_length 24 _ (binStr_length_le _ 24 (by norm_num)
    (combinePixel_lt p h0 h1 h2)), padTo_chars 24 _ (binStr_chars _), ?_⟩
  rw [parseBin_padTo, parseBin_binStr, combinePixel_eq p h0 h1 h2]

lemma instructionWord_length (p : Fin 3 → Nat)
    (h0 : p 0 < 256) (h1 : p 1 < 256) (h2 : p 2 < 256) :
    (instructionWord p).length = 80 := by
  rw [instructionWord, List.length_append, (payload_facts p h0 h1 h2).1]
  simp

lemma instructionWord_chars (p : Fin 3 → Nat)
    (h0 : p 0 < 256) (h1 : p 1 < 256) (h2 : p 2 < 256) :
    ∀ c ∈ instructionWord p, c = '0' ∨ c = '1' := by
  intro c hc
  rw [instructionWord, List.mem_append] at hc
  rcases hc with hc | hc
  · simp only [List.mem_cons] at hc
    rcases hc with rfl | rfl | rfl | rfl | hc
    · exact Or.inl rfl
    · exact Or.inl rfl
    · exact Or.inl rfl
    · exact Or.inr rfl
    · exact Or.inl (List.eq_of_mem_replicate hc)
  · exact (payload_facts p h0 h1 h2).2.1 c hc

/-- The low 56 positions of an instruction word are the opcode and the zero
field; dropping them leaves exactly the payload. -/
lemma instructionWord_drop (p : Fin 3 → Nat) :
    List.drop 56 (instructionWord p) = padTo 24 (binStr (combinePixel p)) := by
  rw [instructionWord,
    show (56 : Nat) =
      ('0' :: '0' :: '0' :: '1' :: List.replicate 52 '0').length from by simp,
    List.drop_left]

/-- Row-major flattening of the encoder's nested loops. -/
lemma combine_words_eq (hgt wdt : Nat) (m : Nat → Nat → Fin 3 → Nat) :
    combine_binary_to_24_bit hgt wdt m =
      (List.range (hgt * wdt)).map
        (fun k => instructionWord (m (k / wdt) (k % wdt))) := by
  by_cases hw : wdt = 0
  · subst hw
    induction hgt with
    | zero => rfl
    | succ hgt ih =>
        rw [combine_binary_to_24_bit, List.range_succ, List.flatMap_append,
          ← combine_binary_to_24_bit, ih]
        simp
  · induction hgt with
    | zero =>
        rw [Nat.zero_mul]
        rfl
    | succ hgt ih =>
        rw [combine_binary_to_24_bit, List.range_succ, List.flatMap_append,
          ← combine_binary_to_24_bit, ih,
          show (hgt + 1) * wdt = hgt * wdt + wdt from by ring,
          List.range_add, List.map_append]
        congr 1
        simp only [List.flatMap_cons, List.flatMap_nil, List.append_nil]
        rw [List.map_map]
        apply List.map_congr_left
        intro x hx
        rw [List.mem_range] at hx
        have hd : (hgt * wdt + x) / wdt = hgt := by
          rw [show hgt * wdt + x = x + wdt * hgt from by ring,
            Nat.add_mul_div_left x hgt (by omega), Nat.div_eq_of_lt hx]
          omega
        have hm : (hgt * wdt + x) % wdt = x := by
          rw [show hgt * wdt + x = x + wdt * hgt from by ring,
            Nat.add_mul_mod_self_left, Nat.mod_eq_of_lt hx]
        simp only [Function.comp_apply]
        rw [hd, hm]

lemma combine_length (hgt wdt : Nat) (m : Nat → Nat → Fin 3 → Nat) :
    (combine_binary_to_24_bit hgt wdt m).length = hgt * wdt := by
  rw [combine_words_eq]
  simp

lemma combine_get (hgt wdt : Nat) (m : Nat → Nat → Fin 3 → Nat) (k : Nat)
    (hk : k < hgt * wdt) :
    (combine_binary_to_24_bit hgt wdt m).get? k =
      some (instructionWord (m (k / wdt) (k % wdt))) := by
  rw [combine_words_eq, List.get?_map, List.get?_range hk]
  rfl

/-- C6: for a valid `hgt × wdt × 3` byte matrix the encoder emits exactly
`hgt * wdt` instruction words, one per pixel in row-major order (row outer,
column inner): word `k` belongs to pixel `(k / wdt, k % wdt)`, is exactly
80 characters of `0`/`1` of the form opcode `0001`, then 52 zero bits, then
a 24-bit payload whose binary value is `R * 2^16 + G * 2^8 + B`; the trace
file is the words followed by exactly the three fixed 80-character trailer
lines, which never depend on image content. -/
theorem trace_encoder_format (hgt wdt : Nat) (m : Nat → Nat → Fin 3 → Nat)
    (hm : ∀ i j, i < hgt → j < wdt → ∀ c, m i j c < 256) :
    (combine_binary_to_24_bit hgt wdt m).length = hgt * wdt ∧
    (∀ k, k < hgt * wdt →
      (combine_binary_to_24_bit hgt wdt m).get? k =
        some (instructionWord (m (k / wdt) (k % wdt))) ∧
      instructionWord (m (k / wdt) (k % wdt)) =
        ('0' :: '0' :: '0' :: '1' :: List.replicate 52 '0') ++
          padTo 24 (binStr (combinePixel (m (k / wdt) (k % wdt)))) ∧
      (instructionWord (m (k / wdt) (k % wdt))).length = 80 ∧
      (∀ c ∈ instructionWord (m (k / wdt) (k % wdt)), c = '0' ∨ c = '1') ∧
      (padTo 24 (binStr (combinePixel (m (k / wdt) (k % wdt))))).length = 24 ∧
      parseBin (padTo 24 (binStr (combinePixel (m (k / wdt) (k % wdt))))) =
        m (k / wdt) (k % wdt) 0 * 65536 + m (k / wdt) (k % wdt) 1 * 256 +
          m (k / wdt) (k % wdt) 2) ∧
    write_combined_numbers_to_file (combine_binary_to_24_bit hgt wdt m) =
      combine_binary_to_24_bit hgt wdt m ++ [trailer0, trailer1, trailer2] ∧
    trailer0.length = 80 ∧ trailer1.length = 80 ∧ trailer2.length = 80 := by
  have hpix : ∀ k, k < hgt * wdt → ∀ c : Fin 3, m (k / wdt) (k % wdt) c < 256 := by
    intro k hk c
    have hw : 0 < wdt := by
      rcases Nat.eq_zero_or_pos wdt with hz | hp
      · rw [hz] at hk
        omega
      · exact hp
    exact hm _ _ ((Nat.div_lt_iff_lt_mul hw).mpr hk) (Nat.mod_lt _ hw) c
  refine ⟨combine_length hgt wdt m, ?_, rfl, rfl, rfl, rfl⟩
  intro k hk
  have h0 := hpix k hk 0
  have h1 := hpix k hk 1
  have h2 := hpix k hk 2
  exact ⟨combine_get hgt wdt m k hk, rfl,
    instructionWord_length _ h0 h1 h2, instructionWord_chars _ h0 h1 h2,
    (payload_facts _ h0 h1 h2).1, (payload_facts _ h0 h1 h2).2.2⟩

theorem trace_encoder_format_witness :
    (combine_binary_to_24_bit 1 1
        (fun (_ _ : Nat) (c : Fin 3) => 128 + (c : Nat))).length = 1 * 1 ∧
    (combine_binary_to_24_bit 1 1
        (fun (_ _ : Nat) (c : Fin 3) => 128 + (c : Nat))).get? 0 =
      some (instructionWord
        ((fun (_ _ : Nat) (c : Fin 3) => 128 + (c : Nat)) (0 / 1) (0 % 1))) := by
  have h := trace_encoder_format 1 1
    (fun (_ _ : Nat) (c : Fin 3) => 128 + (c : Nat))
    (fun i j hi hj c => by
      have := c.isLt
      show 128 + (c : Nat) < 256
      omega)
  exact ⟨h.1, (h.2.1 0 (by decide)).1⟩

/-- C7: round-trip — decoding the low 24 bits of the `k`-th emitted
instruction word as three consecutive 8-bit fields (most significant first)
reproduces exactly the `(R, G, B)` triple of the `k`-th pixel in row-major
order. -/
theorem trace_roundtrip (hgt wdt : Nat) (m : Nat → Nat → Fin 3 → Nat)
    (hm : ∀ i j, i < hgt → j < wdt → ∀ c, m i j c < 256) :
    ∀ k, k < hgt * wdt →
      ((combine_binary_to_24_bit hgt wdt m).get? k).map decode24 =
        some (m (k / wdt) (k % wdt) 0, m (k / wdt) (k % wdt) 1,
          m (k / wdt) (k % wdt) 2) := by
  intro k hk
  have hw : 0 < wdt := by
    rcases Nat.eq_zero_or_pos wdt with hz | hp
    · rw [hz] at hk
      omega
    · exact hp
  have hpix : ∀ c : Fin 3, m (k / wdt) (k % wdt) c < 256 := fun c =>
    hm _ _ ((Nat.div_lt_iff_lt_mul hw).mpr hk) (Nat.mod_lt _ hw) c
  have h0 := hpix 0
  have h1 := hpix 1
  have h2 := hpix 2
  rw [combine_get hgt wdt m k hk]
  show some (decode24 (instructionWord (m (k / wdt) (k % wdt)))) = _
  simp only [decode24]
  rw [instructionWord_drop, (payload_facts _ h0 h1 h2).2.2]
  simp only [Option.some.injEq, Prod.mk.injEq]
  refine ⟨by omega, by omega, by omega⟩

theorem trace_roundtrip_witness :
    ((combine_binary_to_24_bit 1 1
        (fun (_ _ : Nat) (c : Fin 3) => 17 + 100 * (c : Nat))).get? 0).map
        decode24 =
      some ((fun (_ _ : Nat) (c : Fin 3) => 17 + 100 * (c : Nat))
          (0 / 1) (0 % 1) 0,
        (fun (_ _ : Nat) (c : Fin 3) => 17 + 100 * (c : Nat)) (0 / 1) (0 % 1) 1,
        (fun (_ _ : Nat) (c : Fin 3) => 17 + 100 * (c : Nat)) (0 / 1) (0 % 1) 2) :=
  trace_roundtrip 1 1 (fun (_ _ : Nat) (c : Fin 3) => 17 + 100 * (c : Nat))
    (fun i j hi hj c => by
      have := c.isLt
      show 17 + 100 * (c : Nat) < 256
      omega) 0 (by decide)

/-- Unpacking of the decoder's in-bounds check into its pointwise form. -/
lemma inBounds_spec (len nv nh : Nat) (hb : inBounds len nv nh = true) :
    ∀ i, i < nv → ∀ j, j < nh → ∀ off, off < 3 →
      (i * nh + j) * 3 + off < len := by
  rw [inBounds] at hb
  simp only [List.all_eq_true, List.mem_range, Nat.blt_eq] at hb
  intro i hi j hj off hoff
  exact hb i hi j hj off hoff

/-- The decoder's reads are all in bounds exactly when the sample array has
at least `3 * nv * nh` entries (the largest read index is
`3 * nv * nh - 1`; extra trailing samples are never touched). -/
lemma inBounds_iff (len nv nh : Nat) :
    inBounds len nv nh = true ↔ 3 * nv * nh ≤ len := by
  constructor
  · intro hb
    rcases Nat.eq_zero_or_pos nv with hv | hv
    · rw [hv]
      simp
    rcases Nat.eq_zero_or_pos nh with hh | hh
    · rw [hh]
      simp
    have hmax := inBounds_spec len nv nh hb (nv - 1) (by omega) (nh - 1)
      (by omega) 2 (by omega)
    have key : (nv - 1) * nh = nv * nh - nh := by
      rw [Nat.sub_mul, one_mul]
    rw [key] at hmax
    have hassoc : 3 * nv * nh = 3 * (nv * nh) := by ring
    rw [hassoc]
    have hPH : nh ≤ nv * nh := Nat.le_mul_of_pos_left nh hv
    generalize hP : nv * nh = P at hmax hPH ⊢
    omega
  · intro hlen
    rw [inBounds]
    simp only [List.all_eq_true, List.mem_range, Nat.blt_eq]
    intro i hi j hj off hoff
    have h1 : i * nh ≤ nv * nh - nh := by
      have hs := Nat.mul_le_mul_right nh (show i ≤ nv - 1 by omega)
      rwa [Nat.sub_mul, one_mul] at hs
    have hassoc : 3 * nv * nh = 3 * (nv * nh) := by ring
    rw [hassoc] at hlen
    have hh : 0 < nh := by omega
    have hPH : nh ≤ nv * nh := Nat.le_mul_of_pos_left nh (by omega)
    generalize hB : nv * nh = B at h1 hlen hPH
    generalize hA : i * nh = A at h1 ⊢
    omega

/-- C5 (amended): the decoder succeeds exactly when the flat sample array
has length at least `3 * (2*v_res) * (2*h_res)`; in particular an array one
sample short is rejected and an array of exactly the required length is
accepted, and on failure no output image is produced at all (`none`). -/
theorem parse_image_succeeds_iff (samples : List Int) (h_res v_res : Nat) :
    (parse_image samples h_res v_res).isSome = true ↔
      3 * (2 * v_res) * (2 * h_res) ≤ samples.length := by
  rw [parse_image]
  by_cases hb : inBounds samples.length (2 * v_res) (2 * h_res) = true
  · rw [if_pos hb, Option.isSome_some]
    exact ⟨fun _ => (inBounds_iff _ _ _).mp hb, fun _ => rfl⟩
  · rw [if_neg hb, Option.isSome_none]
    constructor
    · intro hfalse
      exact absurd hfalse (by simp)
    · intro hlen
      exact absurd ((inBounds_iff _ _ _).mpr hlen) hb

/-- C5 (counterexample): a sample array one entry longer than
`3 * (2h) * (2w)` is accepted by the decoder, so it does not fail on every
length different from the exact one. -/
theorem parse_image_accepts_excess :
    (parse_image (List.replicate 13 (0 : Int)) 1 1).isSome = true ∧
      (13 : Nat) ≠ 3 * (2 * 1) * (2 * 1) := ⟨rfl, by decide⟩

/-- C8: on success, destination channel 0 comes from the sample at flat
index `3*(i*(2*width) + j) + 2`, channel 1 from offset `+1` and channel 2
from offset `+0` — the decoder reverses the channel order of each 3-sample
group (`h_res` is the source width). -/
theorem parse_image_channels (samples : List Int) (h_res v_res : Nat)
    (out : Nat → Nat → Fin 3 → Int)
    (hout : parse_image samples h_res v_res = some out)
    (i j : Nat) (hi : i < 2 * v_res) (hj : j < 2 * h_res) :
    out i j 0 = samples.getD (3 * (i * (2 * h_res) + j) + 2) 0 ∧
    out i j 1 = samples.getD (3 * (i * (2 * h_res) + j) + 1) 0 ∧
    out i j 2 = samples.getD (3 * (i * (2 * h_res) + j) + 0) 0 ∧
    3 * (i * (2 * h_res) + j) + 2 < samples.length := by
  rw [parse_image] at hout
  by_cases hb : inBounds samples.length (2 * v_res) (2 * h_res) = true
  · rw [if_pos hb] at hout
    have hfo := Option.some.inj hout
    rw [← hfo]
    have hlen := inBounds_spec samples.length (2 * v_res) (2 * h_res) hb
      i hi j hj 2 (by omega)
    refine ⟨?_, ?_, ?_, by omega⟩
    · show (if i < 2 * v_res ∧ j < 2 * h_res then
          samples.getD ((i * (2 * h_res) + j) * 3 + (2 - ((0 : Fin 3) : Nat))) 0
        else 0) = _
      rw [if_pos ⟨hi, hj⟩]
      have hc : ((0 : Fin 3) : Nat) = 0 := rfl
      rw [hc]
      congr 1
      omega
    · show (if i < 2 * v_res ∧ j < 2 * h_res then
          samples.getD ((i * (2 * h_res) + j) * 3 + (2 - ((1 : Fin 3) : Nat))) 0
        else 0) = _
      rw [if_pos ⟨hi, hj⟩]
      have hc : ((1 : Fin 3) : Nat) = 1 := rfl
      rw [hc]
      congr 1
      omega
    · show (if i < 2 * v_res ∧ j < 2 * h_res then
          samples.getD ((i * (2 * h_res) + j) * 3 + (2 - ((2 : Fin 3) : Nat))) 0
        else 0) = _
      rw [if_pos ⟨hi, hj⟩]
      have hc : ((2 : Fin 3) : Nat) = 2 := rfl
      rw [hc]
      congr 1
      omega
  · rw [if_neg hb] at hout
    exact Option.noConfusion hout

theorem parse_image_channels_witness :
    (fun i j (c : Fin 3) =>
        if i < 2 * 1 ∧ j < 2 * 1 then
          (List.replicate 12 (5 : Int)).getD
            ((i * (2 * 1) + j) * 3 + (2 - (c : Nat))) 0
        else 0) 0 0 0 =
      (List.replicate 12 (5 : Int)).getD (3 * (0 * (2 * 1) + 0) + 2) 0 ∧
    3 * (0 * (2 * 1) + 0) + 2 < (List.replicate 12 (5 : Int)).length := by
  have h := parse_image_channels (List.replicate 12 (5 : Int)) 1 1
    (fun i j (c : Fin 3) =>
      if i < 2 * 1 ∧ j < 2 * 1 then
        (List.replicate 12 (5 : Int)).getD
          ((i * (2 * 1) + j) * 3 + (2 - (c : Nat))) 0
      else 0) rfl 0 0 (by decide) (by decide)
  exact ⟨h.1, h.2.2.2⟩

namespace Runsim

/-- The 24-bit packing loop of the duplicate encoder kept in
`src/runsim.py` (lines 51-53); textually identical to the upscaler copy. -/
def combinePixel (p : Fin 3 → Nat) : Nat :=
  (List.finRange 3).foldl
    (fun acc k => (acc <<< 8) ||| parseBin (binary_repr8 (p k))) 0

/-- One 80-character instruction word of the duplicate encoder
(src/runsim.py lines 54-57). -/
def instructionWord (p : Fin 3 → Nat) : List Char :=
  ('0' :: '0' :: '0' :: '1' :: List.replicate 52 '0') ++
    padTo 24 (binStr (combinePixel p))

/-- Embedding of `combine_binary_to_24_bit` of `src/runsim.py` (lines 46-59). -/
def combine_binary_to_24_bit (hgt wdt : Nat) (m : Nat → Nat → Fin 3 → Nat) :
    List (List Char) :=
  (List.range hgt).flatMap
    (fun i => (List.range wdt).map (fun j => instructionWord (m i j)))

/-- Embedding of `parse_image` of `src/runsim.py` (lines 78-98); the resolution setup
and the assignment loop (lines 91-95) are identical to the upscaler copy. -/
def parse_image (samples : List Int) (h_res v_res : Nat) :
    Option (Nat → Nat → Fin 3 → Int) :=
  if inBounds samples.length (2 * v_res) (2 * h_res) then
    some (fun i j c =>
      if i < 2 * v_res ∧ j < 2 * h_res then
        samples.getD ((i * (2 * h_res) + j) * 3 + (2 - (c : Nat))) 0
      else 0)
  else none

end Runsim

/-- C10: the two copies of the encode/decode pipeline are equivalent — the
`combine_binary_to_24_bit` in `src/runsim.py` produces the same word
sequence as the one in `src/upscaler/runsim.py` on every matrix, and the
two `parse_image` functions compute the same output image on every sample
array and dimensions. -/
theorem pipelines_agree :
    (∀ (hgt wdt : Nat) (m : Nat → Nat → Fin 3 → Nat),
      Runsim.combine_binary_to_24_bit hgt wdt m =
        combine_binary_to_24_bit hgt wdt m) ∧
    (∀ (samples : List Int) (h_res v_res : Nat),
      Runsim.parse_image samples h_res v_res =
        parse_image samples h_res v_res) :=
  ⟨fun _ _ _ => rfl, fun _ _ _ => rfl⟩
